import Mathlib

/-!
Verification of the FIRC/remittance email-extraction pipeline.

Shallow embedding of the repository's Python sources:
  * rules.py                      (rule classifier)
  * runner.py                     (watermark poller and dispatcher)
  * handler/disposal_handler.py   (body-text extraction handler, keyed upsert)
  * handler/firc_handler.py       (attachment extraction handler, keyed upsert,
                                   password-candidate assembly, LLM retry loop)

Strings are modelled as `List Char`.  Python's `str.lower` and the regex
whitespace class are modelled over their ASCII core (`lowerChar`, `isWs`);
the repository's rule literals and comparisons are ASCII.  Pandas DataFrames
are modelled as a column list plus rows of association lists, with missing
cells reading as the empty string (the `fillna` view under which the
store is read and written).  Floating-point shrink factors are modelled as
exact rationals.
-/

/-- ASCII whitespace, the core of Python's regex whitespace class
(space, tab, newline, carriage return, vertical tab, form feed). -/
def isWs (c : Char) : Bool :=
  decide (c.toNat = 32 ∨ c.toNat = 9 ∨ c.toNat = 10 ∨ c.toNat = 13 ∨
    c.toNat = 11 ∨ c.toNat = 12)

/-- ASCII lower-casing, the core of Python's `str.lower()`. -/
def lowerChar (c : Char) : Char :=
  if 65 ≤ c.toNat ∧ c.toNat ≤ 90 then Char.ofNat (c.toNat + 32) else c

theorem toNat_ofNatAux (n : Nat) (h : n.isValidChar) : (Char.ofNatAux n h).toNat = n := by
  simp only [Char.ofNatAux, Char.toNat, UInt32.toNat]
  rfl

theorem toNat_ofNat_valid (n : Nat) (h : n < 55296) : (Char.ofNat n).toNat = n := by
  unfold Char.ofNat
  rw [dif_pos (Or.inl h)]
  exact toNat_ofNatAux n (Or.inl h)

theorem isWs_lowerChar (c : Char) : isWs (lowerChar c) = isWs c := by
  unfold lowerChar
  split
  · rename_i h
    have h2 : (Char.ofNat (c.toNat + 32)).toNat = c.toNat + 32 :=
      toNat_ofNat_valid _ (by omega)
    unfold isWs
    rw [h2]
    exact decide_eq_decide.mpr (by omega)
  · rfl

/-- A whitespace-run collapser: the state flag records whether we are inside a
whitespace run whose single replacement space has already been emitted.
`collapseSM false s` is Python's regex substitution of every whitespace run
by a single space. -/
def collapseSM : Bool → List Char → List Char
  | _, [] => []
  | inRun, c :: cs =>
    if isWs c then
      (if inRun then collapseSM true cs else ' ' :: collapseSM true cs)
    else c :: collapseSM false cs

/-- Python's `str.strip()`: drop whitespace from both ends. -/
def stripWs (s : List Char) : List Char :=
  ((s.dropWhile isWs).reverse.dropWhile isWs).reverse

/-- Embedding of `rules._norm_spaces`: lowercase, collapse every whitespace
run to a single space, then strip the ends. -/
def norm_spaces (s : List Char) : List Char :=
  stripWs (collapseSM false (s.map lowerChar))

/-- Python's substring operator `needle in hay` on plain strings. -/
def pyIn (needle hay : List Char) : Bool :=
  hay.tails.any fun t => needle.isPrefixOf t

/-- Embedding of `rules._contains`: normalized-substring test. -/
def containsNorm (hay needle : List Char) : Bool :=
  pyIn (norm_spaces needle) (norm_spaces hay)

/-- Embedding of `rules._contains_all`: the normalized hay must contain the
normalization of every needle. -/
def containsAll (hay : List Char) (needles : List (List Char)) : Bool :=
  needles.all fun n => pyIn (norm_spaces n) (norm_spaces hay)

/-- Two texts are related when one is obtained from the other by changing
only letter case and replacing whitespace runs by other nonempty whitespace
runs (line breaks included). -/
inductive WsEq : List Char → List Char → Prop
  | nil : WsEq [] []
  | chr {a b : Char} {xs ys : List Char} :
      isWs a = false → isWs b = false → lowerChar a = lowerChar b →
      WsEq xs ys → WsEq (a :: xs) (b :: ys)
  | run {ra rb xs ys : List Char} :
      ra ≠ [] → rb ≠ [] →
      (∀ c ∈ ra, isWs c = true) → (∀ c ∈ rb, isWs c = true) →
      WsEq xs ys → WsEq (ra ++ xs) (rb ++ ys)

theorem collapseSM_ws_run (r u : List Char) (hne : r ≠ []) (hws : ∀ c ∈ r, isWs c = true) :
    collapseSM false (r ++ u) = ' ' :: collapseSM true u ∧
    collapseSM true (r ++ u) = collapseSM true u := by
  induction r with
  | nil => exact absurd rfl hne
  | cons c cs ih =>
    have hc : isWs c = true := hws c (List.mem_cons_self c cs)
    by_cases hcs : cs = []
    · subst hcs
      refine ⟨?_, ?_⟩ <;> simp [collapseSM, hc]
    · have ihh := ih hcs (fun d hd => hws d (List.mem_cons_of_mem c hd))
      refine ⟨?_, ?_⟩ <;>
        simp [collapseSM, hc, ihh.2]

theorem wsEq_collapse {s t : List Char} (h : WsEq s t) :
    collapseSM false (s.map lowerChar) = collapseSM false (t.map lowerChar) ∧
    collapseSM true (s.map lowerChar) = collapseSM true (t.map lowerChar) := by
  induction h with
  | nil => exact ⟨rfl, rfl⟩
  | @chr a b xs ys ha hb hl _ ih =>
    have ha2 : isWs (lowerChar a) = false := by rw [isWs_lowerChar]; exact ha
    have hb2 : isWs (lowerChar b) = false := by rw [isWs_lowerChar]; exact hb
    refine ⟨?_, ?_⟩ <;>
      simp [collapseSM, ha2, hb2, hl, ih.1]
  | @run ra rb xs ys hra hrb hwa hwb _ ih =>
    have hra2 : ra.map lowerChar ≠ [] := by
      intro hx; exact hra (List.map_eq_nil_iff.mp hx)
    have hrb2 : rb.map lowerChar ≠ [] := by
      intro hx; exact hrb (List.map_eq_nil_iff.mp hx)
    have hwa2 : ∀ c ∈ ra.map lowerChar, isWs c = true := by
      intro c hc
      obtain ⟨d, hd, rfl⟩ := List.mem_map.mp hc
      rw [isWs_lowerChar]; exact hwa d hd
    have hwb2 : ∀ c ∈ rb.map lowerChar, isWs c = true := by
      intro c hc
      obtain ⟨d, hd, rfl⟩ := List.mem_map.mp hc
      rw [isWs_lowerChar]; exact hwb d hd
    have e1 := collapseSM_ws_run (ra.map lowerChar) (xs.map lowerChar) hra2 hwa2
    have e2 := collapseSM_ws_run (rb.map lowerChar) (ys.map lowerChar) hrb2 hwb2
    constructor
    · rw [List.map_append, List.map_append, e1.1, e2.1, ih.2]
    · rw [List.map_append, List.map_append, e1.2, e2.2, ih.2]

/-- Texts related by case/whitespace-run changes have the same normalization. -/
theorem wsEq_norm_spaces {s t : List Char} (h : WsEq s t) :
    norm_spaces s = norm_spaces t := by
  unfold norm_spaces
  rw [(wsEq_collapse h).1]

theorem pyIn_nil (u : List Char) : pyIn [] u = true := by
  cases u <;> simp [pyIn, List.isPrefixOf]

theorem isPrefixOf_collapse {n : List Char} (hn : ∀ c ∈ n, isWs c = false) :
    ∀ u : List Char, n.isPrefixOf (collapseSM false u) = n.isPrefixOf u := by
  induction n with
  | nil => intro u; simp [List.isPrefixOf]
  | cons a n2 ih =>
    intro u
    have ha : isWs a = false := hn a (List.mem_cons_self a n2)
    have hn2 : ∀ c ∈ n2, isWs c = false := fun c hc => hn c (List.mem_cons_of_mem a hc)
    cases u with
    | nil => simp [collapseSM]
    | cons c u2 =>
      by_cases hc : isWs c = true
      · have hac : (a == c) = false := by
          apply beq_eq_false_iff_ne.mpr
          intro hx
          rw [hx] at ha
          rw [ha] at hc
          exact Bool.noConfusion hc
        have hsp : (a == ' ') = false := by
          apply beq_eq_false_iff_ne.mpr
          intro hx
          rw [hx] at ha
          exact absurd ha (by decide)
        simp only [collapseSM, hc, if_true, Bool.false_eq_true, if_false,
          List.isPrefixOf, hac, hsp, Bool.false_and]
      · have hcf : isWs c = false := Bool.eq_false_iff.mpr hc
        simp only [collapseSM, hcf, Bool.false_eq_true, if_false, List.isPrefixOf]
        rw [ih hn2 u2]

theorem pyIn_cons (n c : _) (u : List Char) :
    pyIn n (c :: u) = (n.isPrefixOf (c :: u) || pyIn n u) := by
  simp [pyIn]

theorem isPrefixOf_ws_head {n : List Char} (hne : n ≠ [])
    (hn : ∀ c ∈ n, isWs c = false) {c : Char} (hc : isWs c = true) (u : List Char) :
    n.isPrefixOf (c :: u) = false := by
  obtain ⟨a, n2, rfl⟩ := List.exists_cons_of_ne_nil hne
  have ha : isWs a = false := hn a (List.mem_cons_self a n2)
  have hac : (a == c) = false := by
    apply beq_eq_false_iff_ne.mpr
    intro hx
    rw [hx] at ha
    rw [ha] at hc
    exact Bool.noConfusion hc
  simp [List.isPrefixOf, hac]

theorem pyIn_ws_cons {n : List Char} (hne : n ≠ []) (hn : ∀ c ∈ n, isWs c = false)
    {c : Char} (hc : isWs c = true) (u : List Char) :
    pyIn n (c :: u) = pyIn n u := by
  rw [pyIn_cons, isPrefixOf_ws_head hne hn hc, Bool.false_or]

/-- Substring containment of a whitespace-free needle is unchanged by
collapsing whitespace runs in the hay. -/
theorem pyIn_collapse {n : List Char} (hn : ∀ c ∈ n, isWs c = false) (u : List Char) :
    pyIn n (collapseSM false u) = pyIn n u ∧ pyIn n (collapseSM true u) = pyIn n u := by
  by_cases hne : n = []
  · subst hne
    exact ⟨(pyIn_nil _).trans (pyIn_nil u).symm, (pyIn_nil _).trans (pyIn_nil u).symm⟩
  induction u with
  | nil => exact ⟨rfl, rfl⟩
  | cons c u2 ih =>
    by_cases hc : isWs c = true
    · have hstep : pyIn n (c :: u2) = pyIn n u2 := pyIn_ws_cons hne hn hc u2
      constructor
      · simp only [collapseSM, hc, if_true, Bool.false_eq_true, if_false]
        rw [pyIn_ws_cons hne hn (show isWs ' ' = true by decide) (collapseSM true u2),
          ih.2, hstep]
      · simp only [collapseSM, hc, if_true]
        rw [ih.2, hstep]
    · have hcf : isWs c = false := Bool.eq_false_iff.mpr hc
      have hcol : collapseSM false (c :: u2) = c :: collapseSM false u2 := by
        simp [collapseSM, hcf]
      constructor
      · rw [hcol, pyIn_cons, pyIn_cons, ih.1]
        have : n.isPrefixOf (c :: collapseSM false u2) = n.isPrefixOf (c :: u2) := by
          have h2 := isPrefixOf_collapse hn (c :: u2)
          rw [hcol] at h2
          exact h2
        rw [this]
      · simp only [collapseSM, hcf, Bool.false_eq_true, if_false]
        rw [pyIn_cons, pyIn_cons, ih.1]
        have : n.isPrefixOf (c :: collapseSM false u2) = n.isPrefixOf (c :: u2) := by
          have h2 := isPrefixOf_collapse hn (c :: u2)
          rw [hcol] at h2
          exact h2
        rw [this]

theorem WsEq.append {a b c d : List Char} (h1 : WsEq a b) (h2 : WsEq c d) :
    WsEq (a ++ c) (b ++ d) := by
  induction h1 with
  | nil => exact h2
  | @chr x y xs ys hx hy hl _ ih => exact WsEq.chr hx hy hl ih
  | @run ra rb xs ys hra hrb hwa hwb _ ih =>
    rw [List.append_assoc, List.append_assoc]
    exact WsEq.run hra hrb hwa hwb ih

theorem WsEq.rev {s t : List Char} (h : WsEq s t) : WsEq s.reverse t.reverse := by
  induction h with
  | nil => exact WsEq.nil
  | @chr a b xs ys ha hb hl _ ih =>
    rw [List.reverse_cons, List.reverse_cons]
    exact WsEq.append ih (WsEq.chr ha hb hl WsEq.nil)
  | @run ra rb xs ys hra hrb hwa hwb _ ih =>
    rw [List.reverse_append, List.reverse_append]
    have hra2 : ra.reverse ≠ [] := by
      intro hx; exact hra (by simpa using congrArg List.reverse hx)
    have hrb2 : rb.reverse ≠ [] := by
      intro hx; exact hrb (by simpa using congrArg List.reverse hx)
    have hr : WsEq (ra.reverse ++ []) (rb.reverse ++ []) :=
      WsEq.run hra2 hrb2 (fun c hc => hwa c (List.mem_reverse.mp hc))
        (fun c hc => hwb c (List.mem_reverse.mp hc)) WsEq.nil
    rw [List.append_nil, List.append_nil] at hr
    exact WsEq.append ih hr

/-- Exact-prefix matching of a whitespace-free pattern against lowercased text
is invariant under case/whitespace-run changes of the text. -/
theorem wsEq_isPrefixOf_lower {g g2 : List Char} (h : WsEq g g2) :
    ∀ n : List Char, (∀ c ∈ n, isWs c = false) →
      n.isPrefixOf (g.map lowerChar) = n.isPrefixOf (g2.map lowerChar) := by
  induction h with
  | nil => intro n _; rfl
  | @chr a b xs ys ha hb hl _ ih =>
    intro n hn
    cases n with
    | nil => simp [List.isPrefixOf]
    | cons x n2 =>
      simp only [List.map_cons, List.isPrefixOf, hl]
      rw [ih n2 (fun c hc => hn c (List.mem_cons_of_mem x hc))]
  | @run ra rb xs ys hra hrb hwa hwb _ ih =>
    intro n hn
    cases n with
    | nil => simp [List.isPrefixOf]
    | cons x n2 =>
      obtain ⟨c1, ra2, rfl⟩ := List.exists_cons_of_ne_nil hra
      obtain ⟨c2, rb2, rfl⟩ := List.exists_cons_of_ne_nil hrb
      have hx : isWs x = false := hn x (List.mem_cons_self x n2)
      have h1 : isWs (lowerChar c1) = true := by
        rw [isWs_lowerChar]; exact hwa c1 (List.mem_cons_self c1 ra2)
      have h2 : isWs (lowerChar c2) = true := by
        rw [isWs_lowerChar]; exact hwb c2 (List.mem_cons_self c2 rb2)
      have e1 : (x == lowerChar c1) = false := by
        apply beq_eq_false_iff_ne.mpr
        intro hc; rw [hc] at hx; rw [hx] at h1; exact Bool.noConfusion h1
      have e2 : (x == lowerChar c2) = false := by
        apply beq_eq_false_iff_ne.mpr
        intro hc; rw [hc] at hx; rw [hx] at h2; exact Bool.noConfusion h2
      simp [List.isPrefixOf, e1, e2]

/-- Exact-suffix matching of a whitespace-free pattern against lowercased text
is invariant under case/whitespace-run changes of the text. -/
theorem wsEq_isSuffixOf_lower {g g2 : List Char} (h : WsEq g g2)
    (n : List Char) (hn : ∀ c ∈ n, isWs c = false) :
    n.isSuffixOf (g.map lowerChar) = n.isSuffixOf (g2.map lowerChar) := by
  unfold List.isSuffixOf
  rw [← List.map_reverse, ← List.map_reverse]
  exact wsEq_isPrefixOf_lower (WsEq.rev h) n.reverse
    (fun c hc => hn c (List.mem_reverse.mp hc))

/-- Substring containment of a whitespace-free needle in lowercased text is
invariant under case/whitespace-run changes of the text. -/
theorem wsEq_pyIn_lower {g g2 : List Char} (h : WsEq g g2)
    (n : List Char) (hn : ∀ c ∈ n, isWs c = false) :
    pyIn n (g.map lowerChar) = pyIn n (g2.map lowerChar) := by
  have c1 := (pyIn_collapse hn (g.map lowerChar)).1
  have c2 := (pyIn_collapse hn (g2.map lowerChar)).1
  rw [← c1, ← c2, (wsEq_collapse h).1]

/-- Attachment record as produced by `runner.list_attachments`:
attachment id, filename and MIME type. -/
structure Attachment where
  attId : String
  filename : List Char
  mimeType : String
deriving DecidableEq, Repr

/-- Embedding of the `EmailContext` dataclass shared by runner.py and
rules.py. -/
structure EmailContext where
  id : String
  internal_ts : Nat
  From_ : List Char
  ToCcBcc : List (List Char)
  Subject : List Char
  Date : List Char
  Body : List Char
  Attachments : List Attachment
deriving DecidableEq, Repr

/-- Embedding of `rules.has_attachment`: Python truthiness of the
attachment list. -/
def has_attachment (ctx : EmailContext) : Bool :=
  !ctx.Attachments.isEmpty

/-- Embedding of `rules.attachment_ext_is`: lowercase the filenames, strip
leading dots from the lowered extensions, test a dotted-suffix match in
any/all mode. -/
def attachment_ext_is (ctx : EmailContext) (exts : List (List Char))
    (require_all : Bool := false) : Bool :=
  let files := ctx.Attachments.map (fun a => a.filename.map lowerChar)
  let exts2 := exts.map (fun e => (e.map lowerChar).dropWhile (fun c => c = '.'))
  let has_ext := fun (ext : List Char) =>
    files.any (fun f => ('.' :: ext).isSuffixOf f)
  if require_all then exts2.all has_ext else exts2.any has_ext

/-- Embedding of `rules.attachment_name_contains`: case-insensitive (but not
whitespace-normalized) substring check on attachment filenames. -/
def attachment_name_contains (ctx : EmailContext) (needles : List (List Char)) : Bool :=
  let files := ctx.Attachments.map (fun a => a.filename.map lowerChar)
  let needles2 := needles.map (fun n => n.map lowerChar)
  files.any (fun f => needles2.any (fun n => pyIn n f))

/-- Embedding of the match dictionaries appended by `rules.categorize`. -/
structure MatchResult where
  name : String
  handler_module : String
  handler_function : String
  stop_after_match : Bool
  pdf_password : Option String
  why : List (String × Bool)
deriving DecidableEq, Repr

/-- Match record for category 1 (inward remittance intimation). -/
def inwardMatch (subjectOk bodyOk : Bool) : MatchResult :=
  { name := "inward_remmittance_intimation"
    handler_module := "handlers.disposal_handler"
    handler_function := "handle"
    stop_after_match := true
    pdf_password := none
    why := [("subject_contains", subjectOk), ("body_contains_all", bodyOk)] }

/-- Match record for category 2 (HDFC Bank FIRC). -/
def hdfcFircMatch (subjectOk bodyOk attachOk : Bool) : MatchResult :=
  { name := "FIRC"
    handler_module := "handlers.firc_handler"
    handler_function := "handle"
    stop_after_match := true
    pdf_password := none
    why := [("subject_contains", subjectOk), ("body_contains_all", bodyOk),
      ("has_pdf_attachment", attachOk)] }

/-- Match record for category 3 (Yes Bank FIRC, with embedded PDF password). -/
def yesFircMatch (subjectOk bodyOk attachOk : Bool) : MatchResult :=
  { name := "FIRC"
    handler_module := "handlers.firc_handler"
    handler_function := "handle"
    stop_after_match := true
    pdf_password := some "21893044"
    why := [("subject_contains", subjectOk), ("body_contains_all", bodyOk),
      ("has_pdf_attachment", attachOk)] }

/-- Embedding of `rules.categorize`: evaluate the three rules in order and
append a match record for each rule that fires. -/
def categorize (ctx : EmailContext) : List MatchResult :=
  let subj := ctx.Subject
  let body := ctx.Body
  let inward_subject_ok := containsNorm subj "DISPOSAL REQUIRED FOR FCY INWARD".toList
  let inward_body_ok := containsAll body
    [ "FCYinward.disposal@hdfcbank.com".toList,
      "promoters@canopusinfosystems.com".toList,
      "We are in receipt of following inward remittance.".toList,
      "Kindly provide following disposal instructions".toList,
      "INW_NO".toList ]
  let m1 := if inward_subject_ok && inward_body_ok then
    [inwardMatch inward_subject_ok inward_body_ok] else []
  let firc_subject_ok := containsNorm subj
    "Debit Cum Credit Advice For FCY Inward Remittance".toList
  let firc_body_ok := containsAll body
    [ "Inward.Remittances@hdfcbank.com".toList,
      "promoters@canopusinfosystems.com".toList,
      "Please find the attached Debit Cum Credit advice for Inward".toList,
      "For any queries,Please write to us at firchelpdesk@hdfcbank.com".toList ]
  let firc_attach_ok := has_attachment ctx && attachment_ext_is ctx ["pdf".toList] false
  let m2 := if firc_subject_ok && firc_body_ok && firc_attach_ok then
    [hdfcFircMatch firc_subject_ok firc_body_ok firc_attach_ok] else []
  let yes_subject_ok := containsNorm subj
    "Miscellaneous_Advices - INWARD REMITTANCE - YBL REF NO".toList
  let yes_body_ok := containsAll body
    [ "yestouch@yesbank.in".toList,
      "We attach herewith the transaction advice for trade transaction reference".toList ]
  let yes_attach_ok := has_attachment ctx && attachment_ext_is ctx ["pdf".toList] false &&
    attachment_name_contains ctx ["firc".toList]
  let m3 := if yes_subject_ok && yes_body_ok && yes_attach_ok then
    [yesFircMatch yes_subject_ok yes_body_ok yes_attach_ok] else []
  m1 ++ m2 ++ m3

/-- A Gmail message as seen by runner.py: its id and its millisecond
`internalDate`. -/
structure GMsg where
  id : String
  internalDate : Nat
deriving DecidableEq, Repr

/-- Stable ascending insertion (a new element goes after existing equals),
modelling Python's stable `list.sort(key=internalDate)`. -/
def insertByTs (m : GMsg) : List GMsg → List GMsg
  | [] => [m]
  | x :: r => if m.internalDate < x.internalDate then m :: x :: r else x :: insertByTs m r

/-- Stable ascending sort by `internalDate`. -/
def sortByInternalDate (l : List GMsg) : List GMsg :=
  l.foldl (fun acc m => insertByTs m acc) []

/-- Embedding of `runner.list_new_messages`.  `fetched` is the message list
returned by the upstream query (whose `after:` filter only has second
precision and may therefore return stale messages); the function re-filters
client-side to strictly-greater millisecond `internalDate` and sorts
ascending by `internalDate`. -/
def list_new_messages (last_ts_ms : Nat) (fetched : List GMsg) : List GMsg :=
  sortByInternalDate (fetched.filter (fun m => last_ts_ms < m.internalDate))

/-- One step of the per-message bookkeeping at the bottom of runner.main's
batch loop: skip ids already in the processed set, otherwise add the id and
advance the watermark to the message's `internalDate` when larger. -/
def stepWatermark (st : Nat × List String) (m : GMsg) : Nat × List String :=
  if st.2.contains m.id then st
  else ((if st.1 < m.internalDate then m.internalDate else st.1), m.id :: st.2)

/-- Embedding of the watermark/processed-set evolution of one poll batch in
`runner.main`. -/
def runBatch (last_ts : Nat) (processed : List String) (msgs : List GMsg) :
    Nat × List String :=
  msgs.foldl stepWatermark (last_ts, processed)

/-- The messages of a batch that are actually processed (not skipped by the
processed-id set, first occurrence wins within the batch). -/
def batchProcessed (processed : List String) : List GMsg → List GMsg
  | [] => []
  | m :: r =>
    if processed.contains m.id then batchProcessed processed r
    else m :: batchProcessed (m.id :: processed) r

/-- Embedding of `runner.call_handler`: the handler body may succeed or
raise; the surrounding try/except turns any exception into a logged
success, so the dispatcher never sees an error. -/
def call_handler (result : Except String Unit) : Except String Unit :=
  match result with
  | Except.ok _ => Except.ok ()
  | Except.error _ => Except.ok ()

/-- Embedding of the match-dispatch loop in `runner.main`: call the handler
of each match in order through `call_handler`, stopping after a match whose
`stop_after_match` flag is set. -/
def dispatchMatches : List MatchResult → (Nat → Except String Unit) → Nat →
    Except String Unit
  | [], _, _ => Except.ok ()
  | m :: rest, outcome, i =>
    match call_handler (outcome i) with
    | Except.error e => Except.error e
    | Except.ok _ =>
      if m.stop_after_match then Except.ok ()
      else dispatchMatches rest outcome (i + 1)

/-- Embedding of the per-message tail of `runner.main`: dispatch all matches,
then add the message id to the processed set.  An uncaught handler
exception would surface as `Except.error` and abort the loop. -/
def processMessage (mid : String) (processed : List String)
    (ms : List MatchResult) (outcome : Nat → Except String Unit) :
    Except String (List String) :=
  match dispatchMatches ms outcome 0 with
  | Except.error e => Except.error e
  | Except.ok _ => Except.ok (mid :: processed)

/-- The matches whose handlers the dispatch loop actually invokes. -/
def invokedMatches : List MatchResult → List MatchResult
  | [] => []
  | m :: rest => m :: (if m.stop_after_match then [] else invokedMatches rest)

/-- A store row: an association list from column name to string cell. -/
abbrev Row := List (String × String)

/-- Read a cell; a missing column reads as the empty string, matching the
`fillna` view under which the Excel store is loaded and saved. -/
def getCell (r : Row) (c : String) : String :=
  (r.lookup c).getD ""

/-- Write a cell in place (`df.at`), replacing the first binding of the
column or appending a new one. -/
def setCell : Row → String → String → Row
  | [], c, v => [(c, v)]
  | (k, w) :: r, c, v => if k = c then (c, v) :: r else (k, w) :: setCell r c v

/-- The per-row update loop shared by both upserts: for each supplied pair,
read the old cell (empty if the column is absent from the frame) and write
only when the new value differs. -/
def updateRow (cols : List String) (r : Row) (ups : Row) : Row :=
  ups.foldl
    (fun acc kv =>
      let old := if cols.contains kv.1 then getCell acc kv.1 else ""
      if old = kv.2 then acc else setCell acc kv.1 kv.2)
    r

/-- The tabular store: column names plus rows. -/
structure Store where
  cols : List String
  rows : List Row
deriving DecidableEq, Repr

/-- Embedding of `ensure_cols` (identical in both handlers): add each listed
column that the frame does not yet have; new columns read as empty in every
row. -/
def ensure_cols (df : Store) (cs : List String) : Store :=
  cs.foldl (fun d c => if d.cols.contains c then d else ⟨d.cols ++ [c], d.rows⟩) df

/-- Update the first row whose `pk_col` cell equals `pk` (pandas
`mask.any()` plus `df[mask].index[0]`); `none` when no row matches. -/
def updateFirstMatch (pk_col pk : String) (cols : List String) (ups : Row) :
    List Row → Option (List Row)
  | [] => none
  | r :: rest =>
    if getCell r pk_col = pk then some (updateRow cols r ups :: rest)
    else
      match updateFirstMatch pk_col pk cols ups rest with
      | some rest2 => some (r :: rest2)
      | none => none

/-- Embedding of `disposal_handler.upsert_selected`.  Payload values are
already strings (`str(v)` with `None` mapped to the empty string).  The
columns ensured are `allowed_cols` plus the key column; Python builds that
list through `set`, whose order is unspecified, and `ensure_cols` adds each
name at most once, so the model passes the concatenation directly. -/
def upsert_selected (df0 : Store) (pk_col : String) (updates : Row)
    (allowed_cols : List String) : Store :=
  let safe_updates := updates.filter (fun kv => allowed_cols.contains kv.1)
  let df := ensure_cols df0 (allowed_cols ++ [pk_col])
  let pk := (safe_updates.lookup pk_col).getD ""
  if pk = "" then ⟨df.cols, df.rows ++ [safe_updates]⟩
  else
    match updateFirstMatch pk_col pk df.cols safe_updates df.rows with
    | some rows2 => ⟨df.cols, rows2⟩
    | none => ⟨df.cols, df.rows ++ [safe_updates]⟩

/-- Embedding of `firc_handler.upsert_by_inward`: like `upsert_selected`
but with no allowed-column restriction; every payload key is ensured and
written, and the key column is fixed to `InwardPK`. -/
def upsert_by_inward (df0 : Store) (updates : Row) : Store :=
  let df := ensure_cols df0 (updates.map Prod.fst ++ ["InwardPK"])
  let inward_pk := (updates.lookup "InwardPK").getD ""
  if inward_pk = "" then ⟨df.cols, df.rows ++ [updates]⟩
  else
    match updateFirstMatch "InwardPK" inward_pk df.cols updates df.rows with
    | some rows2 => ⟨df.cols, rows2⟩
    | none => ⟨df.cols, df.rows ++ [updates]⟩

/-- Outcome of one attempt against the extraction service, as classified by
the retry loop's exception test (`"rate limit" in str(e).lower() or "429"`):
success with a JSON payload, a transient rate limit, or a non-retriable
error. -/
inductive LLMOutcome
  | ok (content : String)
  | rateLimit (msg : String)
  | fatal (msg : String)
deriving DecidableEq, Repr

/-- Observable events of the retry loop: a service call with the shrink
factor applied to the input, or a backoff sleep in seconds. -/
inductive LLMEvent
  | call (factor : ℚ)
  | sleep (seconds : Nat)
deriving DecidableEq, Repr

/-- The shrink schedule `shrink_steps[attempt] if attempt < 3 else 0.25`
with `shrink_steps = [1.0, 0.6, 0.35]`, as exact rationals. -/
def shrinkStep (attempt : Nat) : ℚ :=
  [(1 : ℚ), 6/10, 35/100].getD attempt (25/100)

/-- The retry loop of `call_openai_financials` and `call_openai_firc`
(identical in both handlers): up to `fuel` further attempts starting at
0-based index `attempt`; on success return, on rate limit sleep
`2 * (attempt + 1)` seconds and retry, on any other error re-raise. -/
def runAttempts (outcome : Nat → LLMOutcome) : Nat → Nat →
    List LLMEvent × Except String String
  | 0, _ => ([], Except.error "OpenAI rate limit: all retries exhausted")
  | fuel + 1, attempt =>
    match outcome attempt with
    | LLMOutcome.ok content => ([LLMEvent.call (shrinkStep attempt)], Except.ok content)
    | LLMOutcome.rateLimit _ =>
      let rest := runAttempts outcome fuel (attempt + 1)
      (LLMEvent.call (shrinkStep attempt) :: LLMEvent.sleep (2 * (attempt + 1)) :: rest.1,
        rest.2)
    | LLMOutcome.fatal e => ([LLMEvent.call (shrinkStep attempt)], Except.error e)

/-- The extraction-service call with `attempts = 3`. -/
def call_openai_with_retry (outcome : Nat → LLMOutcome) :
    List LLMEvent × Except String String :=
  runAttempts outcome 3 0

/-- The shrink factors of the calls in an event trace, in order. -/
def callFactors (evs : List LLMEvent) : List ℚ :=
  evs.filterMap (fun e => match e with | LLMEvent.call f => some f | _ => none)

/-- The rate-limit scenario of the specification: attempts 1 and 2 are
rate-limited, attempt 3 succeeds. -/
def rateLimitScenario : Nat → LLMOutcome :=
  fun n => if n < 2 then LLMOutcome.rateLimit "429" else LLMOutcome.ok "resp"

/-- Python's `str.strip()` on a `String`. -/
def stripStr (s : String) : String :=
  String.mk (stripWs s.toList)

/-- The character class of an inline password hint
(letters, digits, at sign, hash, underscore, hyphen, dot). -/
def isPwChar (c : Char) : Bool :=
  decide ((65 ≤ c.toNat ∧ c.toNat ≤ 90) ∨ (97 ≤ c.toNat ∧ c.toNat ≤ 122) ∨
    (48 ≤ c.toNat ∧ c.toNat ≤ 57) ∨ c.toNat = 64 ∨ c.toNat = 35 ∨
    c.toNat = 95 ∨ c.toNat = 45 ∨ c.toNat = 46)

/-- Case-insensitive literal match of `pat` (already lowercase) at the head
of `s`. -/
def matchesCI (pat s : List Char) : Bool :=
  pat.isPrefixOf (s.map lowerChar)

/-- Try to match the hint pattern — the keyword `password` or `pwd`
(case-insensitive), optional whitespace, a colon or hyphen, optional
whitespace, then a nonempty run of password characters — at the head of
`s`; return the captured password and the rest of the text after the
match. -/
def tryHint (s : List Char) : Option (List Char × List Char) :=
  let afterKw : Option (List Char) :=
    if matchesCI "password".toList s then some (s.drop 8)
    else if matchesCI "pwd".toList s then some (s.drop 3)
    else none
  match afterKw with
  | none => none
  | some r1 =>
    match r1.dropWhile isWs with
    | [] => none
    | c :: r3 =>
      if c = ':' ∨ c = '-' then
        let r4 := r3.dropWhile isWs
        let pw := r4.takeWhile isPwChar
        if pw.isEmpty then none else some (pw, r4.drop pw.length)
      else none

/-- Left-to-right non-overlapping scan for inline password hints
(`re.findall` of the hint pattern); the fuel starts at the text length and
bounds the scan, each step consuming at least one character. -/
def findHintsAux : Nat → List Char → List String
  | 0, _ => []
  | _ + 1, [] => []
  | fuel + 1, c :: rest =>
    match tryHint (c :: rest) with
    | some (pw, rem) => String.mk pw :: findHintsAux fuel rem
    | none => findHintsAux fuel rest

/-- All inline password hints of a body text, leftmost first. -/
def findHints (s : List Char) : List String :=
  findHintsAux s.length s

/-- The optional `passwords.json` lookup table: `domains`, `senders` and
`subjects` maps (in source order) from a substring key to a password list. -/
structure PasswordsJson where
  domains : List (List Char × List String)
  senders : List (List Char × List String)
  subjects : List (List Char × List String)
deriving Repr

/-- The environment variables read by `gather_candidate_passwords`; `none`
models an unset variable. -/
structure PwEnv where
  PDF_PASSWORD : Option String
  YESBANK_PDF_PASSWORD : Option String
  HDFCBANK_PDF_PASSWORD : Option String
  ICICI_PDF_PASSWORD : Option String
  PDF_PASSWORDS : Option String
deriving Repr

/-- Python truthiness of `os.environ.get(name)`: a set, nonempty value. -/
def envTruthy (v : Option String) : List String :=
  match v with
  | some s => if s = "" then [] else [stripStr s]
  | none => []

/-- The seen-set deduplication loop at the end of
`gather_candidate_passwords` and in `firc_handler.handle`. -/
def pyDedupAux (seen : List String) : List String → List String
  | [] => []
  | p :: rest =>
    if seen.contains p then pyDedupAux seen rest
    else p :: pyDedupAux (p :: seen) rest

/-- Order-preserving first-occurrence deduplication. -/
def pyDedup (l : List String) : List String :=
  pyDedupAux [] l

/-- Candidates from the single global default `PDF_PASSWORD`. -/
def segGlobal (env : PwEnv) : List String :=
  envTruthy env.PDF_PASSWORD

/-- Candidates from the per-source named defaults, in source order. -/
def segNamed (env : PwEnv) : List String :=
  envTruthy env.YESBANK_PDF_PASSWORD ++ envTruthy env.HDFCBANK_PDF_PASSWORD ++
    envTruthy env.ICICI_PDF_PASSWORD

/-- Candidates from the comma-separated `PDF_PASSWORDS` list: split on
commas, strip each entry, keep the nonempty ones. -/
def segList (env : PwEnv) : List String :=
  match env.PDF_PASSWORDS with
  | none => []
  | some s =>
    if s = "" then []
    else ((s.toList.splitOn ',').map (fun p => stripStr (String.mk p))).filter
      (fun p => ¬ p = "")

/-- Candidates from the `passwords.json` lookup table: senders, then
domains (both matched as lowercase substrings of the sender), then
subjects (matched against the subject). -/
def segLookup (pwjson : Option PasswordsJson) (sender subject : List Char) :
    List String :=
  match pwjson with
  | none => []
  | some j =>
    let sender_l := sender.map lowerChar
    let subj_l := subject.map lowerChar
    (j.senders.foldl (fun acc kv =>
        if pyIn (kv.1.map lowerChar) sender_l then acc ++ kv.2 else acc) []) ++
    (j.domains.foldl (fun acc kv =>
        if pyIn (kv.1.map lowerChar) sender_l then acc ++ kv.2 else acc) []) ++
    (j.subjects.foldl (fun acc kv =>
        if pyIn (kv.1.map lowerChar) subj_l then acc ++ kv.2 else acc) [])

/-- Candidates from inline body hints, stripped, nonempty. -/
def segHints (email_body : List Char) : List String :=
  ((findHints email_body).map stripStr).filter (fun h => ¬ h = "")

/-- Embedding of `firc_handler.gather_candidate_passwords`: environment
defaults, then the lookup table, then body hints, deduplicated preserving
order. -/
def gather_candidate_passwords (env : PwEnv) (pwjson : Option PasswordsJson)
    (email_body sender subject : List Char) : List String :=
  pyDedup (segGlobal env ++ segNamed env ++ segList env ++
    segLookup pwjson sender subject ++ segHints email_body)

/-- Candidates from the rule override (`match.get("pdf_password")`,
appended only when truthy). -/
def segOverride (direct_pw : Option String) : List String :=
  match direct_pw with
  | some p => if p = "" then [] else [p]
  | none => []

/-- Embedding of the candidate assembly in `firc_handler.handle`: the rule
override first, then the gathered candidates, deduplicated again. -/
def handle_candidates (direct_pw : Option String) (env : PwEnv)
    (pwjson : Option PasswordsJson) (email_body sender subject : List Char) :
    List String :=
  pyDedup (segOverride direct_pw ++
    gather_candidate_passwords env pwjson email_body sender subject)

/-- Specification-side dedup: keep each string's first occurrence. -/
def firstDedup : List String → List String
  | [] => []
  | a :: r => a :: firstDedup (r.filter (fun x => ¬ x = a))
termination_by l => l.length
decreasing_by
  simp only [List.length_cons]
  exact Nat.lt_succ_of_le (List.length_filter_le _ _)

theorem mem_insertByTs (m x : GMsg) (l : List GMsg) :
    x ∈ insertByTs m l ↔ x = m ∨ x ∈ l := by
  induction l with
  | nil => simp [insertByTs]
  | cons a r ih =>
    unfold insertByTs
    split
    · simp
    · simp only [List.mem_cons, ih]
      tauto

theorem sorted_insertByTs (m : GMsg) (l : List GMsg)
    (h : List.Sorted (fun a b : GMsg => a.internalDate ≤ b.internalDate) l) :
    List.Sorted (fun a b : GMsg => a.internalDate ≤ b.internalDate) (insertByTs m l) := by
  induction l with
  | nil => simp [insertByTs]
  | cons x r ih =>
    rcases List.sorted_cons.mp h with ⟨hx, hr⟩
    unfold insertByTs
    split
    · rename_i hlt
      apply List.sorted_cons.mpr
      refine ⟨?_, h⟩
      intro b hb
      rcases List.mem_cons.mp hb with hb | hb
      · subst hb; omega
      · have := hx b hb; omega
    · rename_i hnlt
      apply List.sorted_cons.mpr
      refine ⟨?_, ih hr⟩
      intro b hb
      rcases (mem_insertByTs m b r).mp hb with hb | hb
      · subst hb; omega
      · exact hx b hb

theorem sorted_sortByInternalDate_aux (l acc : List GMsg)
    (h : List.Sorted (fun a b : GMsg => a.internalDate ≤ b.internalDate) acc) :
    List.Sorted (fun a b : GMsg => a.internalDate ≤ b.internalDate)
      (l.foldl (fun acc m => insertByTs m acc) acc) := by
  induction l generalizing acc with
  | nil => exact h
  | cons m r ih => exact ih (insertByTs m acc) (sorted_insertByTs m acc h)

theorem mem_sortByInternalDate_aux (l acc : List GMsg) (x : GMsg) :
    x ∈ l.foldl (fun acc m => insertByTs m acc) acc ↔ x ∈ acc ∨ x ∈ l := by
  induction l generalizing acc with
  | nil => simp
  | cons m r ih =>
    simp only [List.foldl_cons, ih, mem_insertByTs, List.mem_cons]
    tauto

/-- Claim C1: for every watermark value, `list_new_messages` returns only
messages whose internal timestamp is strictly greater than the watermark —
whatever stale messages the coarse upstream time filter delivered — and the
returned list is ordered ascending by internal timestamp. -/
theorem claim_C1 (last_ts_ms : Nat) (fetched : List GMsg) :
    (∀ m ∈ list_new_messages last_ts_ms fetched, last_ts_ms < m.internalDate) ∧
    List.Sorted (fun a b : GMsg => a.internalDate ≤ b.internalDate)
      (list_new_messages last_ts_ms fetched) := by
  constructor
  · intro m hm
    unfold list_new_messages sortByInternalDate at hm
    rcases (mem_sortByInternalDate_aux _ [] m).mp hm with h | h
    · simp at h
    · have := List.of_mem_filter h
      simpa using this
  · exact sorted_sortByInternalDate_aux _ [] (by simp)

/-- Witness for C1 at a concrete out-of-order fetched list. -/
theorem claim_C1_witness :
    (∀ m ∈ list_new_messages 5 [⟨"a", 9⟩, ⟨"b", 3⟩, ⟨"c", 7⟩], 5 < m.internalDate) ∧
    List.Sorted (fun a b : GMsg => a.internalDate ≤ b.internalDate)
      (list_new_messages 5 [⟨"a", 9⟩, ⟨"b", 3⟩, ⟨"c", 7⟩]) :=
  claim_C1 5 [⟨"a", 9⟩, ⟨"b", 3⟩, ⟨"c", 7⟩]

theorem le_foldl_max (ts : Nat) (l : List Nat) :
    ts ≤ l.foldl (fun a b => max a b) ts := by
  induction l generalizing ts with
  | nil => exact Nat.le_refl ts
  | cons b r ih => exact Nat.le_trans (Nat.le_max_left ts b) (ih (max ts b))

/-- Claim C6: the watermark never decreases across a batch, and after the
batch it equals the maximum of the old watermark and the internal
timestamps of the messages actually processed (those not skipped by the
processed-id set) — not the poll time. -/
theorem claim_C6 (last_ts : Nat) (processed : List String) (msgs : List GMsg) :
    last_ts ≤ (runBatch last_ts processed msgs).1 ∧
    (runBatch last_ts processed msgs).1 =
      ((batchProcessed processed msgs).map GMsg.internalDate).foldl
        (fun a b => max a b) last_ts := by
  have main : ∀ (msgs : List GMsg) (ts : Nat) (proc : List String),
      (runBatch ts proc msgs).1 =
        ((batchProcessed proc msgs).map GMsg.internalDate).foldl
          (fun a b => max a b) ts := by
    intro msgs
    induction msgs with
    | nil => intro ts proc; rfl
    | cons m r ih =>
      intro ts proc
      unfold runBatch batchProcessed
      by_cases hc : proc.contains m.id
      · simp only [List.foldl_cons, stepWatermark, hc, if_true]
        exact ih ts proc
      · have hc2 : proc.contains m.id = false := Bool.eq_false_iff.mpr hc
        simp only [List.foldl_cons, stepWatermark, hc2, Bool.false_eq_true, if_false,
          List.map_cons]
        have hmax : (if ts < m.internalDate then m.internalDate else ts) =
            max ts m.internalDate := by
          split <;> omega
        rw [hmax]
        exact ih (max ts m.internalDate) (m.id :: proc)
  refine ⟨?_, main msgs last_ts processed⟩
  rw [main msgs last_ts processed]
  exact le_foldl_max _ _

theorem dispatchMatches_ok (ms : List MatchResult) (outcome : Nat → Except String Unit)
    (i : Nat) : dispatchMatches ms outcome i = Except.ok () := by
  induction ms generalizing i with
  | nil => rfl
  | cons m rest ih =>
    unfold dispatchMatches
    cases h : outcome i with
    | ok u => simp only [call_handler]; split <;> simp [ih]
    | error e => simp only [call_handler]; split <;> simp [ih]

/-- Claim C7: any exception a handler raises is caught at the dispatch
boundary (`call_handler`), so processing a message never aborts the poll
loop, and the message id is still added to the processed set afterwards —
whatever the handler outcomes were. -/
theorem claim_C7 (mid : String) (processed : List String)
    (ms : List MatchResult) (outcome : Nat → Except String Unit) :
    processMessage mid processed ms outcome = Except.ok (mid :: processed) := by
  unfold processMessage
  rw [dispatchMatches_ok]

theorem invokedMatches_of_all_stop (l : List MatchResult)
    (h : ∀ m ∈ l, m.stop_after_match = true) :
    invokedMatches l = l.take 1 := by
  cases l with
  | nil => rfl
  | cons m r =>
    unfold invokedMatches
    rw [h m (List.mem_cons_self m r)]
    simp

/-- Claim C9: every match produced by `categorize` carries
`stop_after_match = true`, so the dispatcher invokes at most one handler per
email — the one of the first matching rule in classifier order. -/
theorem claim_C9 (ctx : EmailContext) :
    (∀ m ∈ categorize ctx, m.stop_after_match = true) ∧
    invokedMatches (categorize ctx) = (categorize ctx).take 1 := by
  have hall : ∀ m ∈ categorize ctx, m.stop_after_match = true := by
    intro m hm
    simp only [categorize, List.mem_append] at hm
    rcases hm with (h | h) | h <;>
      · revert h
        split <;> intro h <;> simp_all [inwardMatch, hdfcFircMatch, yesFircMatch]
  exact ⟨hall, invokedMatches_of_all_stop _ hall⟩

/-- Witness for C9 at a concrete email context. -/
theorem claim_C9_witness :
    invokedMatches (categorize ⟨"id1", 7, [], [], "subject".toList, [],
      "body".toList, []⟩) =
      (categorize ⟨"id1", 7, [], [], "subject".toList, [], "body".toList, []⟩).take 1 :=
  (claim_C9 ⟨"id1", 7, [], [], "subject".toList, [], "body".toList, []⟩).2

theorem ensure_cols_rows (cs : List String) (df : Store) :
    (ensure_cols df cs).rows = df.rows := by
  induction cs generalizing df with
  | nil => rfl
  | cons c rest ih =>
    unfold ensure_cols
    simp only [List.foldl_cons]
    split
    · exact ih df
    · exact ih ⟨df.cols ++ [c], df.rows⟩

theorem ensure_cols_cols_mono (cs : List String) (df : Store) (c : String)
    (h : c ∈ df.cols) : c ∈ (ensure_cols df cs).cols := by
  induction cs generalizing df with
  | nil => exact h
  | cons d rest ih =>
    unfold ensure_cols
    simp only [List.foldl_cons]
    split
    · exact ih df h
    · exact ih ⟨df.cols ++ [d], df.rows⟩ (List.mem_append_left _ h)

theorem ensure_cols_cols_self (cs : List String) (df : Store) (c : String)
    (h : c ∈ cs) : c ∈ (ensure_cols df cs).cols := by
  induction cs generalizing df with
  | nil => simp at h
  | cons d rest ih =>
    rcases List.mem_cons.mp h with h | h
    · subst h
      unfold ensure_cols
      simp only [List.foldl_cons]
      split
      · rename_i hc
        exact ensure_cols_cols_mono rest df c (List.elem_iff.mp hc)
      · exact ensure_cols_cols_mono rest _ c
          (List.mem_append_right _ (List.mem_singleton.mpr rfl))
    · unfold ensure_cols
      simp only [List.foldl_cons]
      split
      · exact ih df h
      · exact ih _ h

theorem ensure_cols_eq_self (cs : List String) (df : Store)
    (h : ∀ c ∈ cs, c ∈ df.cols) : ensure_cols df cs = df := by
  induction cs generalizing df with
  | nil => rfl
  | cons c rest ih =>
    unfold ensure_cols
    simp only [List.foldl_cons]
    rw [if_pos (List.elem_iff.mpr (h c (List.mem_cons_self c rest)))]
    exact ih df (fun d hd => h d (List.mem_cons_of_mem c hd))

theorem lookup_eq_none_of_not_key (l : Row) (c : String)
    (h : c ∉ l.map Prod.fst) : l.lookup c = none := by
  induction l with
  | nil => rfl
  | cons kv r ih =>
    simp only [List.map_cons, List.mem_cons, not_or] at h
    have : (c == kv.1) = false := beq_eq_false_iff_ne.mpr h.1
    simp only [List.lookup, this]
    exact ih h.2

theorem mem_of_lookup_eq_some (l : Row) (c v : String)
    (h : l.lookup c = some v) : (c, v) ∈ l := by
  induction l with
  | nil => simp [List.lookup] at h
  | cons kv r ih =>
    rcases kv with ⟨k, w⟩
    by_cases he : (c == k) = true
    · have hc : c = k := beq_iff_eq.mp he
      simp only [List.lookup, he] at h
      cases h
      subst hc
      exact List.mem_cons_self _ _
    · have he2 : (c == k) = false := Bool.eq_false_iff.mpr he
      simp only [List.lookup, he2] at h
      exact List.mem_cons_of_mem _ (ih h)

theorem lookup_filter_not_allowed (updates : Row) (c : String) (allowed : List String)
    (h : c ∉ allowed) :
    (updates.filter (fun kv => allowed.contains kv.1)).lookup c = none := by
  apply lookup_eq_none_of_not_key
  intro hc
  obtain ⟨kv, hkv, rfl⟩ := List.mem_map.mp hc
  have := List.of_mem_filter hkv
  exact h (List.elem_iff.mp this)

theorem getCell_setCell_self (r : Row) (k v : String) :
    getCell (setCell r k v) k = v := by
  induction r with
  | nil => simp [setCell, getCell, List.lookup]
  | cons kv rest ih =>
    unfold setCell
    split
    · simp [getCell, List.lookup]
    · rename_i hne
      have : (k == kv.1) = false := by
        apply beq_eq_false_iff_ne.mpr
        intro hx; exact hne hx.symm
      simpa [getCell, List.lookup, this] using ih

theorem getCell_setCell_ne (r : Row) (k v c : String) (h : c ≠ k) :
    getCell (setCell r k v) c = getCell r c := by
  induction r with
  | nil =>
    have : (c == k) = false := beq_eq_false_iff_ne.mpr h
    simp [setCell, getCell, List.lookup, this]
  | cons kv rest ih =>
    unfold setCell
    split
    · rename_i hk
      have h1 : (c == k) = false := beq_eq_false_iff_ne.mpr h
      have h2 : (c == kv.1) = false := by
        apply beq_eq_false_iff_ne.mpr
        rw [hk]; exact h
      simp [getCell, List.lookup, h1, h2]
    · by_cases hc : c == kv.1
      · simp [getCell, List.lookup, hc]
      · have hc2 : (c == kv.1) = false := by
          exact Bool.eq_false_iff.mpr hc
        simpa [getCell, List.lookup, hc2] using ih

theorem getCell_updateRow_not_key (cols : List String) (r ups : Row) (c : String)
    (h : c ∉ ups.map Prod.fst) :
    getCell (updateRow cols r ups) c = getCell r c := by
  induction ups generalizing r with
  | nil => rfl
  | cons kv rest ih =>
    simp only [List.map_cons, List.mem_cons, not_or] at h
    have hstep : ∀ acc : Row,
        getCell (if (if cols.contains kv.1 then getCell acc kv.1 else "") = kv.2
          then acc else setCell acc kv.1 kv.2) c = getCell acc c := by
      intro acc
      by_cases ho : (if cols.contains kv.1 then getCell acc kv.1 else "") = kv.2
      · rw [if_pos ho]
      · rw [if_neg ho]
        exact getCell_setCell_ne acc kv.1 kv.2 c h.1
    have trans1 : updateRow cols r (kv :: rest) =
        updateRow cols
          (if (if cols.contains kv.1 then getCell r kv.1 else "") = kv.2
            then r else setCell r kv.1 kv.2) rest := rfl
    rw [trans1, ih _ h.2, hstep r]

/-- Claim C10: when the chosen primary-key column is not itself in the
allowed-column list, `upsert_selected` filters the key out of the sanitized
update, treats the key as empty, and appends a new row (the sanitized
update, which contains no key binding) — it never merges onto an existing
keyed row. -/
theorem claim_C10 (df : Store) (pk_col : String) (updates : Row)
    (allowed_cols : List String) (h : pk_col ∉ allowed_cols) :
    (upsert_selected df pk_col updates allowed_cols).rows =
      df.rows ++ [updates.filter (fun kv => allowed_cols.contains kv.1)] ∧
    (updates.filter (fun kv => allowed_cols.contains kv.1)).lookup pk_col = none := by
  have hlk := lookup_filter_not_allowed updates pk_col allowed_cols h
  constructor
  · unfold upsert_selected
    simp only [hlk, Option.getD_none, if_true]
    rw [ensure_cols_rows]
  · exact hlk

/-- Witness for C10: the disposal handler's key column `RemitterPK` is left
out of the allowed columns; the supplied key value is dropped and an
unkeyed row is appended even though a keyed row exists. -/
theorem claim_C10_witness :
    (upsert_selected ⟨["RemitterPK", "A"], [[("RemitterPK", "r1"), ("A", "0")]]⟩
        "RemitterPK" [("RemitterPK", "r1"), ("A", "1")] ["A"]).rows =
      [[("RemitterPK", "r1"), ("A", "0")]] ++
        [[("RemitterPK", "r1"), ("A", "1")].filter (fun kv => ["A"].contains kv.1)] ∧
    ([("RemitterPK", "r1"), ("A", "1")].filter
        (fun kv => ["A"].contains kv.1)).lookup "RemitterPK" = none :=
  claim_C10 ⟨["RemitterPK", "A"], [[("RemitterPK", "r1"), ("A", "0")]]⟩
    "RemitterPK" [("RemitterPK", "r1"), ("A", "1")] ["A"] (by decide)

theorem not_key_of_filter (updates : Row) (c : String) (allowed : List String)
    (h : c ∉ allowed) :
    c ∉ (updates.filter (fun kv => allowed.contains kv.1)).map Prod.fst := by
  intro hc
  obtain ⟨kv, hkv, rfl⟩ := List.mem_map.mp hc
  exact h (List.elem_iff.mp ((List.mem_filter.mp hkv).2))

theorem ufm_frame (p pk : String) (cols : List String) (ups : Row) (c : String)
    (hc : c ∉ ups.map Prod.fst) :
    ∀ rows rows2 : List Row, updateFirstMatch p pk cols ups rows = some rows2 →
      rows2.map (fun r => getCell r c) = rows.map (fun r => getCell r c) ∧
      rows2.length = rows.length := by
  intro rows
  induction rows with
  | nil => intro rows2 h; simp [updateFirstMatch] at h
  | cons r rest ih =>
    intro rows2 h
    unfold updateFirstMatch at h
    split at h
    · cases h
      simp only [List.map_cons, List.length_cons]
      rw [getCell_updateRow_not_key cols r ups c hc]
      exact ⟨rfl, trivial⟩
    · revert h
      split
      · rename_i rest2 hrest
        intro h
        cases h
        obtain ⟨h1, h2⟩ := ih rest2 hrest
        simp [h1, h2]
      · intro h; cases h

/-- Counterexample to claim C2 as stated: the FIRC handler's merge
(`upsert_by_inward`) takes no allowed-column list and writes every payload
key; here it writes column `X` — a column outside the allowed-column list
`[InwardPK]` (indeed outside any list omitting `X`) — onto an existing
keyed row, changing that row's `X` cell from empty to `1`. -/
theorem claim_C2_counterexample :
    getCell (((upsert_by_inward ⟨["InwardPK"], [[("InwardPK", "k")]]⟩
        [("InwardPK", "k"), ("X", "1")]).rows.getD 0 [])) "X" = "1" ∧
    getCell [("InwardPK", "k")] "X" = "" ∧
    "X" ∉ ["InwardPK"] := by
  refine ⟨?_, ?_, ?_⟩ <;> decide

/-- Claim C2 as amended: the disposal merge `upsert_selected` writes only
columns contained in `allowed_cols` — for every column outside the allowed
list, every pre-existing row's cell is unchanged and any appended row reads
empty there; the FIRC merge `upsert_by_inward` carries no allowed-column
parameter and its write set is exactly the payload's keys — the same frame
property holds for it with the payload keys in place of the allowed list. -/
theorem claim_C2_amended :
    (∀ (df : Store) (pk_col : String) (updates : Row) (allowed_cols : List String)
        (c : String), c ∉ allowed_cols →
      (upsert_selected df pk_col updates allowed_cols).rows.map (fun r => getCell r c) =
        df.rows.map (fun r => getCell r c) ++
          List.replicate
            ((upsert_selected df pk_col updates allowed_cols).rows.length -
              df.rows.length) "") ∧
    (∀ (df : Store) (updates : Row) (c : String), c ∉ updates.map Prod.fst →
      (upsert_by_inward df updates).rows.map (fun r => getCell r c) =
        df.rows.map (fun r => getCell r c) ++
          List.replicate
            ((upsert_by_inward df updates).rows.length - df.rows.length) "") := by
  constructor
  · intro df pk_col updates allowed_cols c hc
    have hkey : c ∉ (updates.filter (fun kv => allowed_cols.contains kv.1)).map Prod.fst :=
      not_key_of_filter updates c allowed_cols hc
    have hsafe : getCell (updates.filter (fun kv => allowed_cols.contains kv.1)) c = "" := by
      unfold getCell
      rw [lookup_eq_none_of_not_key _ _ hkey]
      rfl
    simp only [upsert_selected]
    split
    · simp only [ensure_cols_rows, List.map_append, List.length_append, List.map_cons,
        List.map_nil, List.length_cons, List.length_nil, hsafe]
      have : df.rows.length + (0 + 1) - df.rows.length = 1 := by omega
      rw [this]
      rfl
    · split
      · rename_i rows2 hrows2
        rw [ensure_cols_rows] at hrows2
        obtain ⟨h1, h2⟩ := ufm_frame pk_col _ _ _ c hkey df.rows rows2 hrows2
        simp only [h1, h2]
        have : df.rows.length - df.rows.length = 0 := by omega
        rw [this]
        simp
      · simp only [ensure_cols_rows, List.map_append, List.length_append, List.map_cons,
          List.map_nil, List.length_cons, List.length_nil, hsafe]
        have : df.rows.length + (0 + 1) - df.rows.length = 1 := by omega
        rw [this]
        rfl
  · intro df updates c hc
    have hupd : getCell updates c = "" := by
      unfold getCell
      rw [lookup_eq_none_of_not_key _ _ hc]
      rfl
    simp only [upsert_by_inward]
    split
    · simp only [ensure_cols_rows, List.map_append, List.length_append, List.map_cons,
        List.map_nil, List.length_cons, List.length_nil, hupd]
      have : df.rows.length + (0 + 1) - df.rows.length = 1 := by omega
      rw [this]
      rfl
    · split
      · rename_i rows2 hrows2
        rw [ensure_cols_rows] at hrows2
        obtain ⟨h1, h2⟩ := ufm_frame "InwardPK" _ _ _ c hc df.rows rows2 hrows2
        simp only [h1, h2]
        have : df.rows.length - df.rows.length = 0 := by omega
        rw [this]
        simp
      · simp only [ensure_cols_rows, List.map_append, List.length_append, List.map_cons,
          List.map_nil, List.length_cons, List.length_nil, hupd]
        have : df.rows.length + (0 + 1) - df.rows.length = 1 := by omega
        rw [this]
        rfl

/-- Witness for the amended C2 at a concrete store and payload. -/
theorem claim_C2_witness :
    (upsert_selected ⟨["A"], [[("A", "0"), ("B", "9")]]⟩ "A"
        [("A", "0"), ("B", "7")] ["A"]).rows.map (fun r => getCell r "B") =
      [[("A", "0"), ("B", "9")]].map (fun r => getCell r "B") ++
        List.replicate
          ((upsert_selected ⟨["A"], [[("A", "0"), ("B", "9")]]⟩ "A"
              [("A", "0"), ("B", "7")] ["A"]).rows.length - 1) "" :=
  claim_C2_amended.1 ⟨["A"], [[("A", "0"), ("B", "9")]]⟩ "A"
    [("A", "0"), ("B", "7")] ["A"] "B" (by decide)

/-- Claim C4: the extraction-service call makes at most 3 attempts; the
calls' shrink factors are, in order, the prefix 1.0, 0.6, 0.35 of the
shrink schedule; each retry is preceded by a backoff sleep of twice the
1-based index of the attempt that failed; once an attempt succeeds no
further call is made (with rate limits before it, attempt `i + 1` is the
last and exactly `i + 1` calls occur); and the simulated scenario —
rate-limited attempts 1 and 2, success on attempt 3 — produces exactly 3
calls with factors 1.0, 0.6, 0.35 and sleeps of 2 and 4 seconds. -/
theorem claim_C4 :
    (∀ outcome : Nat → LLMOutcome,
      (callFactors (call_openai_with_retry outcome).1).length ≤ 3) ∧
    (∀ outcome : Nat → LLMOutcome,
      callFactors (call_openai_with_retry outcome).1 =
        [1, 6/10, 35/100].take (callFactors (call_openai_with_retry outcome).1).length) ∧
    (∀ (outcome : Nat → LLMOutcome) (i : Nat) (content : String), i < 3 →
      (∀ j, j < i → ∃ m, outcome j = LLMOutcome.rateLimit m) →
      outcome i = LLMOutcome.ok content →
      (callFactors (call_openai_with_retry outcome).1).length = i + 1 ∧
      (call_openai_with_retry outcome).2 = Except.ok content) ∧
    call_openai_with_retry rateLimitScenario =
      ([LLMEvent.call 1, LLMEvent.sleep 2, LLMEvent.call (6/10), LLMEvent.sleep 4,
        LLMEvent.call (35/100)], Except.ok "resp") := by
  refine ⟨?_, ?_, ?_, ?_⟩
  · intro outcome
    rcases h0 : outcome 0 <;> rcases h1 : outcome 1 <;> rcases h2 : outcome 2 <;>
      simp [call_openai_with_retry, runAttempts, callFactors, h0, h1, h2]
  · intro outcome
    rcases h0 : outcome 0 <;> rcases h1 : outcome 1 <;> rcases h2 : outcome 2 <;>
      simp [call_openai_with_retry, runAttempts, callFactors, h0, h1, h2, shrinkStep]
  · intro outcome i content hi hrl hok
    interval_cases i
    · simp [call_openai_with_retry, runAttempts, callFactors, hok]
    · obtain ⟨m0, e0⟩ := hrl 0 (by omega)
      simp [call_openai_with_retry, runAttempts, callFactors, e0, hok]
    · obtain ⟨m0, e0⟩ := hrl 0 (by omega)
      obtain ⟨m1, e1⟩ := hrl 1 (by omega)
      simp [call_openai_with_retry, runAttempts, callFactors, e0, e1, hok]
  · rfl

/-- Witness for C4: the rate-limit scenario reaches success on the third
attempt with exactly three calls. -/
theorem claim_C4_witness :
    (callFactors (call_openai_with_retry rateLimitScenario).1).length = 2 + 1 ∧
    (call_openai_with_retry rateLimitScenario).2 = Except.ok "resp" :=
  claim_C4.2.2.1 rateLimitScenario 2 "resp" (by omega)
    (fun j hj => ⟨"429", by simp [rateLimitScenario, hj]⟩) (by simp [rateLimitScenario])

theorem getCell_of_mem_nodup (r : Row) (k v : String)
    (hnd : (r.map Prod.fst).Nodup) (hmem : (k, v) ∈ r) : getCell r k = v := by
  induction r with
  | nil => simp at hmem
  | cons kv rest ih =>
    rcases kv with ⟨k0, v0⟩
    simp only [List.map_cons, List.nodup_cons] at hnd
    rcases List.mem_cons.mp hmem with heq | hm2
    · obtain ⟨hk, hv⟩ := Prod.mk.injEq .. ▸ heq
      subst hk; subst hv
      simp [getCell, List.lookup]
    · have hkk : k ≠ k0 := by
        intro hx
        subst hx
        exact hnd.1 (List.mem_map.mpr ⟨(k, v), hm2, rfl⟩)
    /- read past the head binding -/
      have hb : (k == k0) = false := beq_eq_false_iff_ne.mpr hkk
      simp only [getCell, List.lookup, hb]
      exact ih hnd.2 hm2

theorem getCell_updateRow_mem (cols : List String) (r ups : Row) (k v : String)
    (hnd : (ups.map Prod.fst).Nodup)
    (hcols : ∀ kv ∈ ups, cols.contains kv.1 = true)
    (hmem : (k, v) ∈ ups) : getCell (updateRow cols r ups) k = v := by
  induction ups generalizing r with
  | nil => simp at hmem
  | cons kv rest ih =>
    rcases kv with ⟨k0, v0⟩
    simp only [List.map_cons, List.nodup_cons] at hnd
    have trans1 : updateRow cols r ((k0, v0) :: rest) =
        updateRow cols
          (if (if cols.contains k0 then getCell r k0 else "") = v0
            then r else setCell r k0 v0) rest := rfl
    rcases List.mem_cons.mp hmem with heq | hm2
    · obtain ⟨hk, hv⟩ := Prod.mk.injEq .. ▸ heq
      subst hk; subst hv
      rw [trans1, getCell_updateRow_not_key cols _ rest k hnd.1]
      have hcont : cols.contains k = true := hcols (k, v) (List.mem_cons_self _ _)
      rw [hcont]
      simp only [if_true]
      by_cases ho : getCell r k = v
      · rw [if_pos ho]; exact ho
      · rw [if_neg ho]; exact getCell_setCell_self r k v
    · rw [trans1]
      exact ih _ hnd.2 (fun kv2 h2 => hcols kv2 (List.mem_cons_of_mem _ h2)) hm2

theorem updateRow_noop (cols : List String) (r ups : Row)
    (hcols : ∀ kv ∈ ups, cols.contains kv.1 = true)
    (hvals : ∀ kv ∈ ups, getCell r kv.1 = kv.2) :
    updateRow cols r ups = r := by
  induction ups with
  | nil => rfl
  | cons kv rest ih =>
    have trans1 : updateRow cols r (kv :: rest) =
        updateRow cols
          (if (if cols.contains kv.1 then getCell r kv.1 else "") = kv.2
            then r else setCell r kv.1 kv.2) rest := rfl
    rw [trans1, hcols kv (List.mem_cons_self _ _)]
    simp only [if_true]
    rw [if_pos (hvals kv (List.mem_cons_self _ _))]
    exact ih (fun kv2 h2 => hcols kv2 (List.mem_cons_of_mem _ h2))
      (fun kv2 h2 => hvals kv2 (List.mem_cons_of_mem _ h2))

theorem ufm_idem (p pk : String) (cols : List String) (ups : Row)
    (hnd : (ups.map Prod.fst).Nodup)
    (hcols : ∀ kv ∈ ups, cols.contains kv.1 = true)
    (hmem : (p, pk) ∈ ups) :
    ∀ rows rows2 : List Row, updateFirstMatch p pk cols ups rows = some rows2 →
      updateFirstMatch p pk cols ups rows2 = some rows2 := by
  intro rows
  induction rows with
  | nil => intro rows2 h; simp [updateFirstMatch] at h
  | cons r rest ih =>
    intro rows2 h
    unfold updateFirstMatch at h
    split at h
    · cases h
      unfold updateFirstMatch
      have h1 : getCell (updateRow cols r ups) p = pk :=
        getCell_updateRow_mem cols r ups p pk hnd hcols hmem
      rw [if_pos h1]
      have h2 : updateRow cols (updateRow cols r ups) ups = updateRow cols r ups := by
        apply updateRow_noop cols _ ups hcols
        intro kv hkv
        have : (kv.1, kv.2) ∈ ups := by
          rw [Prod.mk.eta]; exact hkv
        exact getCell_updateRow_mem cols r ups kv.1 kv.2 hnd hcols this
      rw [h2]
    · rename_i hr
      revert h
      split
      · rename_i rest2 hrest
        intro h
        cases h
        unfold updateFirstMatch
        rw [if_neg hr, ih rest2 hrest]
      · intro h; cases h

theorem ufm_append (p pk : String) (cols : List String) (ups s : Row)
    (hs : getCell s p = pk) :
    ∀ rows : List Row, updateFirstMatch p pk cols ups rows = none →
      updateFirstMatch p pk cols ups (rows ++ [s]) =
        some (rows ++ [updateRow cols s ups]) := by
  intro rows
  induction rows with
  | nil =>
    intro _
    simp only [List.nil_append]
    unfold updateFirstMatch
    rw [if_pos hs]
  | cons r rest ih =>
    intro h
    simp only [updateFirstMatch] at h
    split at h
    · simp at h
    · rename_i hr
      have hrest : updateFirstMatch p pk cols ups rest = none := by
        revert h
        split
        · intro h; simp at h
        · rename_i hx; intro _; exact hx
      rw [List.cons_append]
      simp only [updateFirstMatch]
      rw [if_neg hr, ih hrest]
      rfl

/-- Claim C3: both merges are idempotent.  The payload models a Python dict
(distinct keys); given that the effective primary key — the sanitized
payload's value at the key column — is non-empty, applying the same merge
twice yields the same store as applying it once: the second application
finds the row written by the first and changes nothing because every new
value equals the old. -/
theorem claim_C3 (df : Store) (pk_col : String) (updates : Row)
    (allowed_cols : List String) (hnd : (updates.map Prod.fst).Nodup) :
    (¬ ((updates.filter (fun kv => allowed_cols.contains kv.1)).lookup pk_col).getD ""
        = "" →
      upsert_selected (upsert_selected df pk_col updates allowed_cols) pk_col updates
          allowed_cols
        = upsert_selected df pk_col updates allowed_cols) ∧
    (¬ (updates.lookup "InwardPK").getD "" = "" →
      upsert_by_inward (upsert_by_inward df updates) updates
        = upsert_by_inward df updates) := by
  constructor
  · intro hpk
    obtain ⟨pkv, hlk⟩ : ∃ v,
        (updates.filter (fun kv => allowed_cols.contains kv.1)).lookup pk_col = some v := by
      cases h : (updates.filter (fun kv => allowed_cols.contains kv.1)).lookup pk_col
      · rw [h] at hpk; simp at hpk
      · exact ⟨_, rfl⟩
    have hpkv : ¬ pkv = "" := by rw [hlk] at hpk; simpa using hpk
    have hmem : (pk_col, pkv) ∈ updates.filter (fun kv => allowed_cols.contains kv.1) :=
      mem_of_lookup_eq_some _ _ _ hlk
    have hnd2 : ((updates.filter (fun kv => allowed_cols.contains kv.1)).map
        Prod.fst).Nodup :=
      hnd.sublist ((List.filter_sublist _).map Prod.fst)
    have hcols : ∀ kv ∈ updates.filter (fun kv => allowed_cols.contains kv.1),
        (ensure_cols df (allowed_cols ++ [pk_col])).cols.contains kv.1 = true := by
      intro kv hkv
      apply List.elem_iff.mpr
      apply ensure_cols_cols_self
      exact List.mem_append_left _ (List.elem_iff.mp ((List.mem_filter.mp hkv).2))
    have hmemcols : ∀ c ∈ allowed_cols ++ [pk_col],
        c ∈ (ensure_cols df (allowed_cols ++ [pk_col])).cols :=
      fun c hc => ensure_cols_cols_self _ df c hc
    have hfirst : upsert_selected df pk_col updates allowed_cols =
        match updateFirstMatch pk_col pkv (ensure_cols df (allowed_cols ++ [pk_col])).cols
          (updates.filter (fun kv => allowed_cols.contains kv.1)) df.rows with
        | some rows2 => ⟨(ensure_cols df (allowed_cols ++ [pk_col])).cols, rows2⟩
        | none => ⟨(ensure_cols df (allowed_cols ++ [pk_col])).cols,
            df.rows ++ [updates.filter (fun kv => allowed_cols.contains kv.1)]⟩ := by
      simp only [upsert_selected, hlk, Option.getD_some, ensure_cols_rows]
      rw [if_neg hpkv]
    have hsecond : ∀ dfx : Store,
        dfx.cols = (ensure_cols df (allowed_cols ++ [pk_col])).cols →
        upsert_selected dfx pk_col updates allowed_cols =
          match updateFirstMatch pk_col pkv dfx.cols
            (updates.filter (fun kv => allowed_cols.contains kv.1)) dfx.rows with
          | some rows2 => ⟨dfx.cols, rows2⟩
          | none => ⟨dfx.cols,
              dfx.rows ++ [updates.filter (fun kv => allowed_cols.contains kv.1)]⟩ := by
      intro dfx hx
      have hself : ensure_cols dfx (allowed_cols ++ [pk_col]) = dfx :=
        ensure_cols_eq_self _ dfx (fun c hc => hx ▸ hmemcols c hc)
      simp only [upsert_selected, hlk, Option.getD_some, hself]
      rw [if_neg hpkv]
    cases hm : updateFirstMatch pk_col pkv (ensure_cols df (allowed_cols ++ [pk_col])).cols
        (updates.filter (fun kv => allowed_cols.contains kv.1)) df.rows with
    | some rows2 =>
      have hS : upsert_selected df pk_col updates allowed_cols =
          ⟨(ensure_cols df (allowed_cols ++ [pk_col])).cols, rows2⟩ := by
        rw [hfirst, hm]
      rw [hS, hsecond ⟨(ensure_cols df (allowed_cols ++ [pk_col])).cols, rows2⟩ rfl]
      dsimp only
      rw [ufm_idem pk_col pkv _ _ hnd2 hcols hmem rows2 rows2 (by
        have := ufm_idem pk_col pkv _ _ hnd2 hcols hmem df.rows rows2 hm
        exact this)]
    | none =>
      have hS : upsert_selected df pk_col updates allowed_cols =
          ⟨(ensure_cols df (allowed_cols ++ [pk_col])).cols,
            df.rows ++ [updates.filter (fun kv => allowed_cols.contains kv.1)]⟩ := by
        rw [hfirst, hm]
      have hsc : getCell (updates.filter (fun kv => allowed_cols.contains kv.1)) pk_col
          = pkv := by
        unfold getCell
        rw [hlk]
        rfl
      have happ := ufm_append pk_col pkv
        (ensure_cols df (allowed_cols ++ [pk_col])).cols
        (updates.filter (fun kv => allowed_cols.contains kv.1))
        (updates.filter (fun kv => allowed_cols.contains kv.1)) hsc df.rows hm
      have hnoop : updateRow (ensure_cols df (allowed_cols ++ [pk_col])).cols
          (updates.filter (fun kv => allowed_cols.contains kv.1))
          (updates.filter (fun kv => allowed_cols.contains kv.1)) =
          updates.filter (fun kv => allowed_cols.contains kv.1) := by
        apply updateRow_noop _ _ _ hcols
        intro kv hkv
        exact getCell_of_mem_nodup _ kv.1 kv.2 hnd2 (Prod.mk.eta ▸ hkv)
      rw [hnoop] at happ
      rw [hS, hsecond ⟨(ensure_cols df (allowed_cols ++ [pk_col])).cols,
        df.rows ++ [updates.filter (fun kv => allowed_cols.contains kv.1)]⟩ rfl]
      dsimp only
      rw [happ]
  · intro hpk
    obtain ⟨pkv, hlk⟩ : ∃ v, updates.lookup "InwardPK" = some v := by
      cases h : updates.lookup "InwardPK"
      · rw [h] at hpk; simp at hpk
      · exact ⟨_, rfl⟩
    have hpkv : ¬ pkv = "" := by rw [hlk] at hpk; simpa using hpk
    have hmem : ("InwardPK", pkv) ∈ updates := mem_of_lookup_eq_some _ _ _ hlk
    have hcols : ∀ kv ∈ updates,
        (ensure_cols df (updates.map Prod.fst ++ ["InwardPK"])).cols.contains kv.1
          = true := by
      intro kv hkv
      apply List.elem_iff.mpr
      apply ensure_cols_cols_self
      exact List.mem_append_left _ (List.mem_map.mpr ⟨kv, hkv, rfl⟩)
    have hmemcols : ∀ c ∈ updates.map Prod.fst ++ ["InwardPK"],
        c ∈ (ensure_cols df (updates.map Prod.fst ++ ["InwardPK"])).cols :=
      fun c hc => ensure_cols_cols_self _ df c hc
    have hfirst : upsert_by_inward df updates =
        match updateFirstMatch "InwardPK" pkv
          (ensure_cols df (updates.map Prod.fst ++ ["InwardPK"])).cols updates df.rows with
        | some rows2 => ⟨(ensure_cols df (updates.map Prod.fst ++ ["InwardPK"])).cols,
            rows2⟩
        | none => ⟨(ensure_cols df (updates.map Prod.fst ++ ["InwardPK"])).cols,
            df.rows ++ [updates]⟩ := by
      simp only [upsert_by_inward, hlk, Option.getD_some, ensure_cols_rows]
      rw [if_neg hpkv]
    have hsecond : ∀ dfx : Store,
        dfx.cols = (ensure_cols df (updates.map Prod.fst ++ ["InwardPK"])).cols →
        upsert_by_inward dfx updates =
          match updateFirstMatch "InwardPK" pkv dfx.cols updates dfx.rows with
          | some rows2 => ⟨dfx.cols, rows2⟩
          | none => ⟨dfx.cols, dfx.rows ++ [updates]⟩ := by
      intro dfx hx
      have hself : ensure_cols dfx (updates.map Prod.fst ++ ["InwardPK"]) = dfx :=
        ensure_cols_eq_self _ dfx (fun c hc => hx ▸ hmemcols c hc)
      simp only [upsert_by_inward, hlk, Option.getD_some, hself]
      rw [if_neg hpkv]
    cases hm : updateFirstMatch "InwardPK" pkv
        (ensure_cols df (updates.map Prod.fst ++ ["InwardPK"])).cols updates df.rows with
    | some rows2 =>
      have hS : upsert_by_inward df updates =
          ⟨(ensure_cols df (updates.map Prod.fst ++ ["InwardPK"])).cols, rows2⟩ := by
        rw [hfirst, hm]
      rw [hS, hsecond ⟨(ensure_cols df (updates.map Prod.fst ++ ["InwardPK"])).cols,
        rows2⟩ rfl]
      dsimp only
      rw [ufm_idem "InwardPK" pkv _ _ hnd hcols hmem df.rows rows2 hm]
    | none =>
      have hS : upsert_by_inward df updates =
          ⟨(ensure_cols df (updates.map Prod.fst ++ ["InwardPK"])).cols,
            df.rows ++ [updates]⟩ := by
        rw [hfirst, hm]
      have hsc : getCell updates "InwardPK" = pkv := by
        unfold getCell
        rw [hlk]
        rfl
      have happ := ufm_append "InwardPK" pkv
        (ensure_cols df (updates.map Prod.fst ++ ["InwardPK"])).cols updates updates
        hsc df.rows hm
      have hnoop : updateRow
          (ensure_cols df (updates.map Prod.fst ++ ["InwardPK"])).cols updates updates
          = updates := by
        apply updateRow_noop _ _ _ hcols
        intro kv hkv
        exact getCell_of_mem_nodup _ kv.1 kv.2 hnd (Prod.mk.eta ▸ hkv)
      rw [hnoop] at happ
      rw [hS, hsecond ⟨(ensure_cols df (updates.map Prod.fst ++ ["InwardPK"])).cols,
        df.rows ++ [updates]⟩ rfl]
      dsimp only
      rw [happ]

/-- Witness for C3: a concrete non-empty-key merge applied twice equals the
merge applied once, for both handlers. -/
theorem claim_C3_witness :
    (upsert_selected (upsert_selected ⟨[], []⟩ "RemitterPK"
        [("RemitterPK", "r1"), ("AmountFCY", "10")] ["RemitterPK", "AmountFCY"])
        "RemitterPK" [("RemitterPK", "r1"), ("AmountFCY", "10")]
        ["RemitterPK", "AmountFCY"]
      = upsert_selected ⟨[], []⟩ "RemitterPK"
        [("RemitterPK", "r1"), ("AmountFCY", "10")] ["RemitterPK", "AmountFCY"]) ∧
    (upsert_by_inward (upsert_by_inward ⟨[], []⟩
        [("InwardPK", "i1"), ("AmountFCY", "10")])
        [("InwardPK", "i1"), ("AmountFCY", "10")]
      = upsert_by_inward ⟨[], []⟩ [("InwardPK", "i1"), ("AmountFCY", "10")]) := by
  have h1 := claim_C3 ⟨[], []⟩ "RemitterPK" [("RemitterPK", "r1"), ("AmountFCY", "10")]
    ["RemitterPK", "AmountFCY"] (by decide)
  have h2 := claim_C3 ⟨[], []⟩ "InwardPK" [("InwardPK", "i1"), ("AmountFCY", "10")]
    ["InwardPK", "AmountFCY"] (by decide)
  exact ⟨h1.1 (by decide), h2.2 (by decide)⟩

theorem pyDedupAux_absorb (g : List String) :
    ∀ sub seen : List String,
      (∀ x : String, sub.contains x = true → seen.contains x = true) →
      pyDedupAux seen (pyDedupAux sub g) = pyDedupAux seen g := by
  induction g with
  | nil => intro sub seen _; rfl
  | cons p rest ih =>
    intro sub seen hss
    by_cases hp : sub.contains p = true
    · simp only [pyDedupAux, hp, if_true]
      rw [ih sub seen hss]
      have hp2 : seen.contains p = true := hss p hp
      rw [if_pos hp2]
    · have hp2 : sub.contains p = false := Bool.eq_false_iff.mpr hp
      simp only [pyDedupAux, hp2, Bool.false_eq_true, if_false]
      by_cases hq : seen.contains p = true
      · simp only [pyDedupAux, hq, if_true]
        rw [ih (p :: sub) seen ?_]
        intro x hx
        simp only [List.contains_cons, Bool.or_eq_true, beq_iff_eq] at hx
        rcases hx with hx | hx
        · rw [hx]; exact hq
        · exact hss x hx
      · have hq2 : seen.contains p = false := Bool.eq_false_iff.mpr hq
        simp only [pyDedupAux, hq2, Bool.false_eq_true, if_false]
        congr 1
        rw [ih (p :: sub) (p :: seen) ?_]
        intro x hx
        simp only [List.contains_cons, Bool.or_eq_true, beq_iff_eq] at hx ⊢
        rcases hx with hx | hx
        · exact Or.inl hx
        · exact Or.inr (hss x hx)

theorem pyDedupAux_append_inner (o : List String) :
    ∀ (seen g : List String),
      pyDedupAux seen (o ++ pyDedupAux [] g) = pyDedupAux seen (o ++ g) := by
  induction o with
  | nil =>
    intro seen g
    simp only [List.nil_append]
    exact pyDedupAux_absorb g [] seen (by intro x hx; simp [List.contains] at hx)
  | cons p o2 ih =>
    intro seen g
    simp only [List.cons_append, pyDedupAux]
    split
    · exact ih seen g
    · congr 1
      exact ih (p :: seen) g

theorem pyDedupAux_eq_firstDedup (l : List String) :
    ∀ seen : List String,
      pyDedupAux seen l = firstDedup (l.filter (fun x => !(seen.contains x))) := by
  induction l with
  | nil => intro seen; simp [pyDedupAux, firstDedup]
  | cons p rest ih =>
    intro seen
    by_cases hp : seen.contains p = true
    · have hf : (!(seen.contains p)) = false := by rw [hp]; rfl
      simp only [pyDedupAux, hp, if_true, List.filter_cons, hf, Bool.false_eq_true,
        if_false]
      exact ih seen
    · have hp2 : seen.contains p = false := Bool.eq_false_iff.mpr hp
      simp only [pyDedupAux, hp2, Bool.false_eq_true, if_false, List.filter_cons,
        Bool.not_false, eq_self_iff_true, if_true]
      rw [ih (p :: seen)]
      have hfd : firstDedup (p :: rest.filter (fun x => !(seen.contains x)))
          = p :: firstDedup ((rest.filter (fun x => !(seen.contains x))).filter
              (fun x => decide (¬ x = p))) := by
        simp [firstDedup]
      rw [hfd]
      congr 1
      rw [List.filter_filter]
      apply congrArg firstDedup
      apply List.filter_congr
      intro a _
      simp only [List.contains_cons, Bool.not_or]
      by_cases hap : a = p
      · subst hap
        simp
      · have h1 : (a == p) = false := beq_eq_false_iff_ne.mpr hap
        simp [h1, hap]

theorem pyDedupAux_nodup (l : List String) :
    ∀ seen : List String,
      (pyDedupAux seen l).Nodup ∧
      ∀ x ∈ pyDedupAux seen l, seen.contains x = false := by
  induction l with
  | nil => intro seen; exact ⟨List.nodup_nil, by intro x hx; simp [pyDedupAux] at hx⟩
  | cons p rest ih =>
    intro seen
    by_cases hp : seen.contains p = true
    · simp only [pyDedupAux, hp, if_true]
      exact ih seen
    · have hp2 : seen.contains p = false := Bool.eq_false_iff.mpr hp
      simp only [pyDedupAux, hp2, Bool.false_eq_true, if_false]
      obtain ⟨hnd, hmem⟩ := ih (p :: seen)
      constructor
      · apply List.nodup_cons.mpr
        refine ⟨?_, hnd⟩
        intro hin
        have := hmem p hin
        simp [List.contains_cons] at this
      · intro x hx
        rcases List.mem_cons.mp hx with hx | hx
        · subst hx; exact hp2
        · have := hmem x hx
          simp only [List.contains_cons, Bool.or_eq_false_iff] at this
          exact this.2

/-- Claim C8: the password-candidate list is assembled in priority order —
rule override, single global default, per-source named defaults,
comma-separated list default, lookup-table entries, inline body hints — and
is deduplicated so a repeated string is kept exactly once, at its first
(highest-priority) position. -/
theorem claim_C8 (direct_pw : Option String) (env : PwEnv)
    (pwjson : Option PasswordsJson) (email_body sender subject : List Char) :
    handle_candidates direct_pw env pwjson email_body sender subject =
      firstDedup (segOverride direct_pw ++ segGlobal env ++ segNamed env ++ segList env ++
        segLookup pwjson sender subject ++ segHints email_body) ∧
    (handle_candidates direct_pw env pwjson email_body sender subject).Nodup := by
  constructor
  · unfold handle_candidates gather_candidate_passwords pyDedup
    rw [pyDedupAux_append_inner]
    rw [pyDedupAux_eq_firstDedup]
    congr 1
    have hconv : ∀ x : String, (!(([] : List String).contains x)) = true := by
      intro x; rfl
    rw [List.filter_congr (fun a _ => hconv a), List.filter_true]
    simp [List.append_assoc]
  · unfold handle_candidates pyDedup
    exact (pyDedupAux_nodup _ []).1

/-- Witness for C8 at concrete sources: the global default reappears in the
comma-separated list and as a body hint but is kept once, in first
position after the override. -/
theorem claim_C8_witness :
    handle_candidates (some "over") ⟨some "glob", none, none, none, some "glob,extra"⟩
        none "password: glob".toList [] [] =
      firstDedup (segOverride (some "over") ++
        segGlobal ⟨some "glob", none, none, none, some "glob,extra"⟩ ++
        segNamed ⟨some "glob", none, none, none, some "glob,extra"⟩ ++
        segList ⟨some "glob", none, none, none, some "glob,extra"⟩ ++
        segLookup none [] [] ++ segHints "password: glob".toList) ∧
    (handle_candidates (some "over") ⟨some "glob", none, none, none, some "glob,extra"⟩
        none "password: glob".toList [] []).Nodup :=
  claim_C8 (some "over") ⟨some "glob", none, none, none, some "glob,extra"⟩
    none "password: glob".toList [] []

theorem wsEq_refl_nonWs (s : List Char) (h : ∀ c ∈ s, isWs c = false) : WsEq s s := by
  induction s with
  | nil => exact WsEq.nil
  | cons c rest ih =>
    exact WsEq.chr (h c (List.mem_cons_self c rest)) (h c (List.mem_cons_self c rest)) rfl
      (ih (fun d hd => h d (List.mem_cons_of_mem c hd)))

theorem any_congr_forall2 {α β : Type} (R : α → β → Prop) (p : α → Bool) (q : β → Bool)
    {l1 : List α} {l2 : List β} (h : List.Forall₂ R l1 l2)
    (hpq : ∀ a b, R a b → p a = q b) : l1.any p = l2.any q := by
  induction h with
  | nil => rfl
  | cons hab _ ih =>
    simp only [List.any_cons, ih]
    rw [hpq _ _ hab]

theorem all_congr_forall2 {α β : Type} (R : α → β → Prop) (p : α → Bool) (q : β → Bool)
    {l1 : List α} {l2 : List β} (h : List.Forall₂ R l1 l2)
    (hpq : ∀ a b, R a b → p a = q b) : l1.all p = l2.all q := by
  induction h with
  | nil => rfl
  | cons hab _ ih =>
    simp only [List.all_cons, ih]
    rw [hpq _ _ hab]

theorem any_map_general {α β : Type} (f : α → β) (l : List α) (p : β → Bool) :
    (l.map f).any p = l.any (fun a => p (f a)) := by
  induction l with
  | nil => rfl
  | cons a r ih => simp [ih]

theorem isEmpty_eq_of_length_eq {α β : Type} {l1 : List α} {l2 : List β}
    (h : l1.length = l2.length) : l1.isEmpty = l2.isEmpty := by
  cases l1 <;> cases l2 <;> simp_all

/-- Counterexample to claim C5 as stated: the attachment-filename substring
comparison (`attachment_name_contains`) lowercases but does not collapse
whitespace; with the whitespace-containing needle `a b`, two filename
choices that differ only in one whitespace run (related by `WsEq`) give
different comparison results, so not every comparison of the classifier
normalizes whitespace runs before testing. -/
theorem claim_C5_counterexample :
    WsEq ['a', ' ', 'b', '.', 'p', 'd', 'f'] ['a', ' ', ' ', 'b', '.', 'p', 'd', 'f'] ∧
    attachment_name_contains
      ⟨"m1", 0, [], [], [], [], [], [⟨"1", ['a', ' ', 'b', '.', 'p', 'd', 'f'], "application/pdf"⟩]⟩
      [['a', ' ', 'b']] = true ∧
    attachment_name_contains
      ⟨"m1", 0, [], [], [], [], [], [⟨"1", ['a', ' ', ' ', 'b', '.', 'p', 'd', 'f'], "application/pdf"⟩]⟩
      [['a', ' ', 'b']] = false := by
  refine ⟨?_, by decide, by decide⟩
  have htail : WsEq ['b', '.', 'p', 'd', 'f'] ['b', '.', 'p', 'd', 'f'] :=
    wsEq_refl_nonWs _ (by decide)
  have hrun : WsEq ([' '] ++ ['b', '.', 'p', 'd', 'f'])
      ([' ', ' '] ++ ['b', '.', 'p', 'd', 'f']) :=
    WsEq.run (by decide) (by decide) (by decide) (by decide) htail
  exact WsEq.chr (by decide) (by decide) rfl hrun

/-- Claim C5 as amended: the subject-substring and body contains-all
comparisons are case-insensitive with every whitespace run collapsed to one
space on both sides before testing, so they are invariant under
case/whitespace-run changes of either side; the attachment-filename
substring comparison lowercases both sides but performs no whitespace
collapsing (see the counterexample with a whitespace-bearing needle);
nevertheless, because the classifier's rules use whitespace-free filename
needles, for every rule and every email, changing only the case or the
whitespace runs (line breaks included) of the subject, the body, or the
attachment filenames does not change what `categorize` returns. -/
theorem claim_C5_amended :
    (∀ hay1 hay2 n1 n2 : List Char, WsEq hay1 hay2 → WsEq n1 n2 →
      containsNorm hay1 n1 = containsNorm hay2 n2) ∧
    (∀ (hay1 hay2 : List Char) (ns1 ns2 : List (List Char)), WsEq hay1 hay2 →
      List.Forall₂ WsEq ns1 ns2 → containsAll hay1 ns1 = containsAll hay2 ns2) ∧
    (∀ ctx1 ctx2 : EmailContext, WsEq ctx1.Subject ctx2.Subject →
      WsEq ctx1.Body ctx2.Body →
      List.Forall₂ (fun a b : Attachment => WsEq a.filename b.filename)
        ctx1.Attachments ctx2.Attachments →
      categorize ctx1 = categorize ctx2) := by
  refine ⟨?_, ?_, ?_⟩
  · intro hay1 hay2 n1 n2 hh hn
    unfold containsNorm
    rw [wsEq_norm_spaces hh, wsEq_norm_spaces hn]
  · intro hay1 hay2 ns1 ns2 hh hns
    unfold containsAll
    apply all_congr_forall2 WsEq _ _ hns
    intro a b hab
    rw [wsEq_norm_spaces hh, wsEq_norm_spaces hab]
  · intro ctx1 ctx2 hsubj hbody hatt
    have hns : norm_spaces ctx1.Subject = norm_spaces ctx2.Subject :=
      wsEq_norm_spaces hsubj
    have hnb : norm_spaces ctx1.Body = norm_spaces ctx2.Body :=
      wsEq_norm_spaces hbody
    have hcn : ∀ lit : List Char,
        containsNorm ctx1.Subject lit = containsNorm ctx2.Subject lit := by
      intro lit
      unfold containsNorm
      rw [hns]
    have hca : ∀ lits : List (List Char),
        containsAll ctx1.Body lits = containsAll ctx2.Body lits := by
      intro lits
      unfold containsAll
      rw [hnb]
    have hhas : has_attachment ctx1 = has_attachment ctx2 := by
      unfold has_attachment
      rw [isEmpty_eq_of_length_eq hatt.length_eq]
    have hext : attachment_ext_is ctx1 ["pdf".toList] false =
        attachment_ext_is ctx2 ["pdf".toList] false := by
      unfold attachment_ext_is
      simp only [Bool.false_eq_true, if_false, List.any_cons, List.any_nil,
        Bool.or_false, any_map_general]
      apply any_congr_forall2 (fun a b : Attachment => WsEq a.filename b.filename)
        _ _ hatt
      intro a b hab
      exact wsEq_isSuffixOf_lower hab _ (by decide)
    have hname : attachment_name_contains ctx1 ["firc".toList] =
        attachment_name_contains ctx2 ["firc".toList] := by
      unfold attachment_name_contains
      simp only [List.map_cons, List.map_nil, List.any_cons, List.any_nil,
        Bool.or_false, any_map_general]
      apply any_congr_forall2 (fun a b : Attachment => WsEq a.filename b.filename)
        _ _ hatt
      intro a b hab
      exact wsEq_pyIn_lower hab _ (by decide)
    simp only [categorize, hcn, hca, hhas, hext, hname]

/-- Witness for the amended C5: an email whose subject differs only in case
and whose body differs only in a whitespace run is classified identically. -/
theorem claim_C5_witness :
    categorize ⟨"m1", 0, [], [], ['A', 'b'], [], ['x', ' ', 'y'], []⟩ =
      categorize ⟨"m2", 5, [], [], ['a', 'B'], [], ['x', '\n', '\n', 'y'], []⟩ := by
  apply claim_C5_amended.2.2
  · exact WsEq.chr (by decide) (by decide) (by decide)
      (WsEq.chr (by decide) (by decide) (by decide) WsEq.nil)
  · have hrun : WsEq ([' '] ++ ['y']) (['\n', '\n'] ++ ['y']) :=
      WsEq.run (by decide) (by decide) (by decide) (by decide)
        (WsEq.chr (by decide) (by decide) rfl WsEq.nil)
    exact WsEq.chr (by decide) (by decide) rfl hrun
  · exact List.Forall₂.nil
